import Mathlib

/-!
Verification of the search/filter core of `src/streamlit_app.py`
(`parse_search_terms`, lines 13-56, and `apply_search_filters`, lines 58-81).

The embedding is a direct shallow translation:
* the character loop of `parse_search_terms` (lines 22-36) becomes a fold of
  `tokStep` over the characters, finished by `tokFinish`;
* the term-processing loop (lines 41-54) becomes `procTerms` (note that the
  Python loop is `for i in range(len(terms))`, whose loop variable reassignment
  `i += 1` has no effect on the iteration: the translation reflects that);
* `apply_search_filters` becomes `apply_search_filters`, with pandas boolean
  masking rendered as `List.filter` and a raised Python exception rendered as
  `Except.error`.

Pandas `Series.str.contains(pat, case=False)` treats `pat` as a regular
expression compiled with `re.IGNORECASE` (default `regex=True`) and raises
`re.error` on an invalid pattern.  `reComp`/`reSearch` model this library
behaviour for the pattern fragment consisting of literal characters, `.`
(any character except a newline) and balanced parentheses (grouping, which
does not affect whether a match exists); any pattern using another regex
metacharacter is outside the modelled fragment and is mapped to a compile
failure, as is an unbalanced parenthesis (which is a real `re.error`).
Every pattern a theorem below touches is either metacharacter-free, a lone
`.`, or a lone `(`, on which the model agrees with Python exactly.
-/

/-- A scalar cell of the tabular dataset: a string, an integer, or a missing
value (pandas `NaN`). -/
inductive Value where
  | vstr (s : String)
  | vint (n : Int)
  | vmissing
deriving DecidableEq, Repr

/-- String rendering of a cell, as produced by `astype(str)` on a
CSV-loaded pandas frame: strings are unchanged, numbers printed, and a
missing value renders as the string "nan". -/
def valueToStr : Value → String
  | .vstr s => s
  | .vint n => toString n
  | .vmissing => "nan"

/-- A dataset: named columns and rows of cells (row `r` holds the cell for
column `cols[i]` at position `i`). -/
structure Dataset where
  cols : List String
  rows : List (List Value)
deriving DecidableEq, Repr

/-- ASCII characters Python's `str.strip()` removes (whitespace). -/
def pyIsSpace (c : Char) : Bool :=
  c = ' ' || c = '\t' || c = '\n' || c = '\r' || c = '\x0b' || c = '\x0c'

/-- Python `s.strip()`: drop leading and trailing whitespace. -/
def pyStrip (s : String) : String :=
  ⟨((s.data.dropWhile pyIsSpace).reverse.dropWhile pyIsSpace).reverse⟩

/-- Python `s.lower()` (ASCII letters, which is all the source relies on). -/
def strLower (s : String) : String :=
  ⟨s.data.map Char.toLower⟩

/-- One step of the character scan of `parse_search_terms` (lines 22-33):
state is (finished tokens, current token, in_quotes flag). -/
def tokStep (st : List String × List Char × Bool) (c : Char) :
    List String × List Char × Bool :=
  match st with
  | (ts, cur, inq) =>
    if c = '\"' then
      if inq = true ∧ cur ≠ [] then (ts ++ [⟨cur⟩], [], false)
      else (ts, cur, !inq)
    else if c = ' ' ∧ inq = false then
      if cur = [] then (ts, cur, inq) else (ts ++ [⟨cur⟩], [], inq)
    else (ts, cur ++ [c], inq)

/-- Final flush after the scan (lines 35-36): a nonempty current token is
appended. -/
def tokFinish (st : List String × List Char × Bool) : List String :=
  if st.2.1 = [] then st.1 else st.1 ++ [⟨st.2.1⟩]

/-- The raw token list `terms` produced by lines 18-36 of
`parse_search_terms`: split on the space character, except inside a
double-quote span; quotes are never kept. -/
def tokenizeRaw (s : String) : List String :=
  tokFinish (s.data.foldl tokStep ([], [], false))

/-- `term.split(':', 1)`: the part before the first colon and the part
after it. -/
def splitAtColon (s : String) : String × String :=
  (⟨s.data.takeWhile (fun c => c ≠ ':')⟩,
   ⟨(s.data.dropWhile (fun c => c ≠ ':')).drop 1⟩)

/-- Python dict assignment `column_searches[col] = value` on an
insertion-ordered association list: overwrite in place, else append. -/
def insertLWW (m : List (String × String)) (k v : String) :
    List (String × String) :=
  match m with
  | [] => [(k, v)]
  | (k₀, v₀) :: rest =>
    if k₀ = k then (k₀, v) :: rest else (k₀, v₀) :: insertLWW rest k v

/-- The term-processing loop of `parse_search_terms` (lines 39-54).  A token
containing `:` becomes a column filter; if the value after the colon is
whitespace-only the next token is read as the value.  The Python loop is
`for i in range(len(terms))` and the `i += 1` at line 51 does not affect the
iteration, so the recursion deliberately does not drop the consumed token. -/
def procTerms : List String → List String × List (String × String) →
    List String × List (String × String)
  | [], acc => acc
  | term :: rest, (fts, colS) =>
    if term.data.contains ':' then
      let col := strLower (pyStrip (splitAtColon term).1)
      let v0 := (splitAtColon term).2
      let v1 :=
        if v0.data.all pyIsSpace then
          match rest with
          | [] => v0
          | t :: _ => t
        else v0
      procTerms rest (fts, insertLWW colS col (pyStrip v1))
    else procTerms rest (fts ++ [term], colS)

/-- `parse_search_terms` (lines 13-56): free-text terms and the
column-filter mapping (insertion-ordered, last write wins). -/
def parse_search_terms (s : String) : List String × List (String × String) :=
  procTerms (tokenizeRaw s) ([], [])

/-- The regex metacharacters of Python `re`. -/
def isMeta (c : Char) : Bool :=
  c = '.' || c = '^' || c = '$' || c = '*' || c = '+' || c = '?' ||
  c = '\x7b' || c = '\x7d' || c = '[' || c = ']' || c = '\\' || c = '|' ||
  c = '(' || c = ')'

/-- `pat` uses no regex metacharacter, so `re.search(pat, ..)` is literal
(case-insensitive under `re.IGNORECASE`) substring search. -/
def noMeta (pat : String) : Bool :=
  pat.data.all (fun c => !isMeta c)

/-- One atom of a compiled pattern: a literal character or `.`. -/
inductive Atom where
  | lit (c : Char)
  | dot
deriving DecidableEq, Repr

/-- Pattern compilation (model of `re.compile` on the supported fragment):
literals and `.` compile to atoms, balanced parentheses are grouping and
disappear, an unbalanced parenthesis is a compile error (`re.error`), and
any other metacharacter is outside the modelled fragment. -/
def reCompAux : List Char → Nat → Option (List Atom)
  | [], 0 => some []
  | [], _ + 1 => none
  | c :: cs, depth =>
    if c = '(' then reCompAux cs (depth + 1)
    else if c = ')' then
      match depth with
      | 0 => none
      | d + 1 => reCompAux cs d
    else if c = '.' then (reCompAux cs depth).map (fun as => Atom.dot :: as)
    else if isMeta c then none
    else (reCompAux cs depth).map (fun as => Atom.lit c :: as)

/-- Compile a pattern string. -/
def reComp (pat : String) : Option (List Atom) :=
  reCompAux pat.data 0

/-- Whether an atom matches one character, under `re.IGNORECASE`
(`.` matches everything except a newline). -/
def atomMatch (a : Atom) (c : Char) : Bool :=
  match a with
  | .lit p => p.toLower = c.toLower
  | .dot => c ≠ '\n'

/-- Whether the compiled pattern matches at the very start of the text. -/
def matchHere : List Atom → List Char → Bool
  | [], _ => true
  | _ :: _, [] => false
  | a :: as, c :: cs => atomMatch a c && matchHere as cs

/-- `re.search`: the compiled pattern matches somewhere in the text. -/
def reSearch (as : List Atom) : List Char → Bool
  | [] => matchHere as []
  | c :: cs => matchHere as (c :: cs) || reSearch as cs

/-- Model of `Series.str.contains(pat, case=False)` applied to one cell
string: `none` models the raised `re.error` on an invalid pattern. -/
def strContains (s pat : String) : Option Bool :=
  (reComp pat).map (fun as => reSearch as s.data)

/-- Lines 67-72 of `apply_search_filters`: one column-specific filter.
The first dataset column whose lowercased name equals the lowercased key is
selected; with no such column the filter is silently ignored; otherwise the
rows whose rendered cell matches the value pattern are retained, and an
invalid pattern raises. -/
def applyColFilter (d : Dataset) (col value : String) : Except Unit Dataset :=
  match d.cols.findIdx? (fun c => strLower c = strLower col) with
  | none => Except.ok d
  | some i =>
    match reComp value with
    | none => Except.error ()
    | some as =>
      Except.ok ⟨d.cols,
        d.rows.filter (fun r =>
          reSearch as (valueToStr (r.getD i Value.vmissing)).data)⟩

/-- Lines 74-79 of `apply_search_filters`: one free-text term.  Empty terms
are skipped; otherwise a row is retained when at least one column's rendered
cell matches the term pattern; an invalid pattern raises. -/
def applyTerm (d : Dataset) (t : String) : Except Unit Dataset :=
  if t = "" then Except.ok d
  else
    match reComp t with
    | none => Except.error ()
    | some as =>
      Except.ok ⟨d.cols,
        d.rows.filter (fun r =>
          (List.range d.cols.length).any (fun i =>
            reSearch as (valueToStr (r.getD i Value.vmissing)).data))⟩

/-- The loop over `column_searches.items()` (lines 67-72). -/
def runColFilters (d : Dataset) (l : List (String × String)) :
    Except Unit Dataset :=
  l.foldl (fun acc cv => acc.bind (fun dd => applyColFilter dd cv.1 cv.2))
    (Except.ok d)

/-- The loop over `terms` (lines 74-79). -/
def runTerms (d : Dataset) (l : List String) : Except Unit Dataset :=
  l.foldl (fun acc t => acc.bind (fun dd => applyTerm dd t)) (Except.ok d)

/-- `apply_search_filters` (lines 58-81): identity on a whitespace-only
query, else parse and apply the column filters then the free-text terms.
(The third Python parameter `data_filters` is unused by the source function
and is omitted.) -/
def apply_search_filters (d : Dataset) (q : String) : Except Unit Dataset :=
  if q.data.all pyIsSpace then Except.ok d
  else
    (runColFilters d (parse_search_terms q).2).bind
      (fun dd => runTerms dd (parse_search_terms q).1)

/-- Prefix test on character lists (used only to phrase the spec's
"contains as a substring"). -/
def isPrefixSeq : List Char → List Char → Bool
  | [], _ => true
  | _ :: _, [] => false
  | a :: as, b :: bs => a = b && isPrefixSeq as bs

/-- Contiguous-sublist test on lists (used only to phrase the spec's
"contains as a substring"). -/
def containsSeq (needle : List Char) : List Char → Bool
  | [] => needle.isEmpty
  | c :: t => isPrefixSeq needle (c :: t) || containsSeq needle t

/-- The spec's matching relation, in the spec's own words: the haystack's
string contains the needle as a case-insensitive (contiguous) substring. -/
def spec_containsCI (hay needle : String) : Bool :=
  containsSeq (needle.data.map Char.toLower) (hay.data.map Char.toLower)

/-- The spec's retention condition for one column filter (section 4.2 step
2): if some column name matches the key case-insensitively (first match
wins), the rendered cell there must contain the value as a case-insensitive
substring; otherwise no constraint. -/
def specColPred (cols : List String) (cv : String × String)
    (r : List Value) : Bool :=
  match cols.findIdx? (fun c => strLower c = strLower cv.1) with
  | none => true
  | some i => spec_containsCI (valueToStr (r.getD i Value.vmissing)) cv.2

/-- The spec's retention condition for one free-text term (section 4.2
steps 3-4): empty terms impose nothing, else some column's rendered cell
contains the term as a case-insensitive substring. -/
def specTermPred (cols : List String) (t : String) (r : List Value) : Bool :=
  t = "" ||
    (List.range cols.length).any (fun i =>
      spec_containsCI (valueToStr (r.getD i Value.vmissing)) t)

/-- The spec's overall row-retention condition: every column filter and
every term must accept the row (AND), a term being an OR across columns. -/
def specRowKeep (cols : List String) (colS : List (String × String))
    (terms : List String) (r : List Value) : Bool :=
  colS.all (fun cv => specColPred cols cv r) &&
    terms.all (fun t => specTermPred cols t r)

/-- Modelled from the spec's words "splitting on whitespace" (section 4.1):
a plain token splitter parameterised by the separator test, used to compare
the source tokenizer against the spec's description. -/
def splitTokAux (isSep : Char → Bool) : List Char → List Char → List String
  | [], cur => if cur = [] then [] else [⟨cur⟩]
  | c :: cs, cur =>
    if isSep c then
      if cur = [] then splitTokAux isSep cs []
      else ⟨cur⟩ :: splitTokAux isSep cs []
    else splitTokAux isSep cs (cur ++ [c])

/-- Tokens of a string split on the space character only. -/
def tokenizeBySpace (s : String) : List String :=
  splitTokAux (fun c => c = ' ') s.data []

/-- Modelled from the spec: tokens of a string split on every whitespace
character, which is what C8's "splits tokens on whitespace" describes. -/
def tokenizeByWhitespace (s : String) : List String :=
  splitTokAux Char.isWhitespace s.data []

theorem tokStep_append (ts₁ ts₂ : List String) (cur : List Char) (inq : Bool)
    (c : Char) :
    tokStep (ts₁ ++ ts₂, cur, inq) c =
      (ts₁ ++ (tokStep (ts₂, cur, inq) c).1, (tokStep (ts₂, cur, inq) c).2) := by
  simp only [tokStep]
  split_ifs <;> simp

theorem foldl_tokStep_append (cs : List Char) :
    ∀ (ts₁ ts₂ : List String) (cur : List Char) (inq : Bool),
      cs.foldl tokStep (ts₁ ++ ts₂, cur, inq) =
        (ts₁ ++ (cs.foldl tokStep (ts₂, cur, inq)).1,
         (cs.foldl tokStep (ts₂, cur, inq)).2) := by
  induction cs with
  | nil => intro ts₁ ts₂ cur inq; simp
  | cons c cs ih =>
    intro ts₁ ts₂ cur inq
    simp only [List.foldl_cons]
    rw [tokStep_append]
    rcases hs : tokStep (ts₂, cur, inq) c with ⟨ts3, cur3, inq3⟩
    exact ih ts₁ ts3 cur3 inq3

theorem foldl_tokStep_acc (cs : List Char) (ts : List String) (cur : List Char)
    (inq : Bool) :
    cs.foldl tokStep (ts, cur, inq) =
      (ts ++ (cs.foldl tokStep ([], cur, inq)).1,
       (cs.foldl tokStep ([], cur, inq)).2) := by
  have h := foldl_tokStep_append cs ts [] cur inq
  simpa using h

theorem tokFinish_append (ts₁ : List String) (st : List String × List Char × Bool) :
    tokFinish (ts₁ ++ st.1, st.2) = ts₁ ++ tokFinish st := by
  rcases st with ⟨ts, cur, inq⟩
  simp only [tokFinish]
  split_ifs <;> simp

theorem tokFinish_foldl_acc (cs : List Char) (ts : List String) (cur : List Char)
    (inq : Bool) :
    tokFinish (cs.foldl tokStep (ts, cur, inq)) =
      ts ++ tokFinish (cs.foldl tokStep ([], cur, inq)) := by
  rw [foldl_tokStep_acc]
  exact tokFinish_append ts _

theorem run_inquote (cs : List Char) (h : '\"' ∉ cs) :
    ∀ (ts : List String) (cur : List Char),
      cs.foldl tokStep (ts, cur, true) = (ts, cur ++ cs, true) := by
  induction cs with
  | nil => intro ts cur; simp
  | cons c cs ih =>
    intro ts cur
    have hc : c ≠ '\"' := fun e => h (e ▸ List.mem_cons_self c cs)
    have hcs : '\"' ∉ cs := fun m => h (List.mem_cons_of_mem _ m)
    simp only [List.foldl_cons, tokStep]
    rw [if_neg hc, if_neg (by simp)]
    rw [ih hcs ts (cur ++ [c])]
    simp

theorem tokStep_space (ts : List String) (cur : List Char) :
    tokStep (ts, cur, false) ' ' = (tokFinish (ts, cur, false), [], false) := by
  simp only [tokStep, tokFinish]
  split_ifs <;> simp_all

theorem run_keeps_unquoted (cs : List Char) (h : '\"' ∉ cs) :
    ∀ (ts : List String) (cur : List Char),
      ∃ ts2 cur2, cs.foldl tokStep (ts, cur, false) = (ts2, cur2, false) := by
  induction cs with
  | nil => intro ts cur; exact ⟨ts, cur, rfl⟩
  | cons c cs ih =>
    intro ts cur
    have hc : c ≠ '\"' := fun e => h (e ▸ List.mem_cons_self c cs)
    have hcs : '\"' ∉ cs := fun m => h (List.mem_cons_of_mem _ m)
    simp only [List.foldl_cons, tokStep]
    rw [if_neg hc]
    split_ifs <;> exact ih hcs _ _

theorem run_noquote (cs : List Char) (h : '\"' ∉ cs) :
    ∀ cur, tokFinish (cs.foldl tokStep ([], cur, false)) =
      splitTokAux (fun c => c = ' ') cs cur := by
  induction cs with
  | nil =>
    intro cur
    simp only [List.foldl_nil, tokFinish, splitTokAux]
    split_ifs <;> simp
  | cons c cs ih =>
    intro cur
    have hc : c ≠ '\"' := fun e => h (e ▸ List.mem_cons_self c cs)
    have hcs : '\"' ∉ cs := fun m => h (List.mem_cons_of_mem _ m)
    by_cases hsp : c = ' '
    · subst hsp
      by_cases hcur : cur = []
      · subst hcur
        simpa [tokStep, splitTokAux, hc] using ih hcs []
      · have hacc := tokFinish_foldl_acc cs [⟨cur⟩] [] false
        simp [tokStep, splitTokAux, hc, hcur, hacc, ih hcs []]
    · simp only [List.foldl_cons, tokStep, splitTokAux]
      rw [if_neg hc, if_neg (by simp [hsp]), if_neg (by simpa using hsp)]
      exact ih hcs (cur ++ [c])

theorem tokens_noquote (cs : List Char) :
    ∀ (ts : List String) (cur : List Char) (inq : Bool),
      (∀ t ∈ ts, '\"' ∉ t.data) → '\"' ∉ cur →
      ∀ t ∈ tokFinish (cs.foldl tokStep (ts, cur, inq)), '\"' ∉ t.data := by
  induction cs with
  | nil =>
    intro ts cur inq hts hcur t ht
    simp only [List.foldl_nil, tokFinish] at ht
    split_ifs at ht
    · exact hts t ht
    · rcases List.mem_append.mp ht with h1 | h1
      · exact hts t h1
      · have : t = (⟨cur⟩ : String) := List.mem_singleton.mp h1
        subst this
        exact hcur
  | cons c cs ih =>
    intro ts cur inq hts hcur t ht
    simp only [List.foldl_cons, tokStep] at ht
    by_cases hc : c = '\"'
    · rw [if_pos hc] at ht
      split_ifs at ht
      · refine ih _ [] _ ?_ (by simp) t ht
        intro t2 ht2
        rcases List.mem_append.mp ht2 with h1 | h1
        · exact hts t2 h1
        · have : t2 = (⟨cur⟩ : String) := List.mem_singleton.mp h1
          subst this
          exact hcur
      · exact ih _ cur _ hts hcur t ht
    · rw [if_neg hc] at ht
      split_ifs at ht
      · exact ih _ cur _ hts hcur t ht
      · refine ih _ [] _ ?_ (by simp) t ht
        intro t2 ht2
        rcases List.mem_append.mp ht2 with h1 | h1
        · exact hts t2 h1
        · have : t2 = (⟨cur⟩ : String) := List.mem_singleton.mp h1
          subst this
          exact hcur
      · refine ih _ (cur ++ [c]) _ hts ?_ t ht
        intro hm
        rcases List.mem_append.mp hm with h1 | h1
        · exact hcur h1
        · exact hc (List.mem_singleton.mp h1).symm

theorem string_mk_data (s : String) : (⟨s.data⟩ : String) = s := rfl

theorem string_data_ne (s : String) (h : s ≠ "") : s.data ≠ [] := by
  intro hd
  apply h
  have : s = (⟨s.data⟩ : String) := rfl
  rw [this, hd]

/-- The claim of C8, as stated, is false: the tokenizer splits only on the
space character, not on whitespace generally — on the input "a\tb" (a tab
between two letters) the source tokenizer yields one token while a
whitespace-splitting tokenizer (the spec's words) yields two. -/
theorem C8_tab_not_split :
    tokenizeRaw "a\tb" ≠ tokenizeByWhitespace "a\tb" ∧
    tokenizeRaw "a\tb" = ["a\tb"] ∧
    tokenizeByWhitespace "a\tb" = ["a", "b"] := by
  decide

/-- C8 (amended: split on the space character rather than on whitespace):
(1) the double-quote character never appears in any produced token;
(2) on quote-free input the tokenizer is exactly the splitter on the space
character, dropping empty tokens (so whitespace other than a space does not
split, and spaces split outside quotes);
(3) a double-quote-delimited span becomes a single token with its inner
spaces preserved and its quotes stripped, finalized at the closing quote,
after which tokenization continues independently. -/
theorem C8_space_quote_tokenizer :
    (∀ (s : String), ∀ t ∈ tokenizeRaw s, '\"' ∉ t.data) ∧
    (∀ s : String, '\"' ∉ s.data → tokenizeRaw s = tokenizeBySpace s) ∧
    (∀ w r : String, '\"' ∉ w.data → w ≠ "" →
      tokenizeRaw ("\"" ++ w ++ "\"" ++ r) = w :: tokenizeRaw r) := by
  refine ⟨?_, ?_, ?_⟩
  · intro s t ht
    exact tokens_noquote s.data [] [] false (by simp) (by simp) t ht
  · intro s hs
    exact run_noquote s.data hs []
  · intro w r hw hne
    unfold tokenizeRaw
    have hdata : ("\"" ++ w ++ "\"" ++ r).data
        = '\"' :: (w.data ++ ('\"' :: r.data)) := by
      simp [String.data_append]
    rw [hdata]
    simp only [List.foldl_cons, List.foldl_append]
    have h1 : tokStep ([], [], false) '\"' = ([], [], true) := by
      simp [tokStep]
    rw [h1, run_inquote w.data hw [] []]
    have h2 : tokStep ([], [] ++ w.data, true) '\"' = ([⟨w.data⟩], [], false) := by
      simp only [tokStep, List.nil_append]
      simp [string_data_ne w hne]
    rw [h2, string_mk_data, tokFinish_foldl_acc]
    rfl

/-- C9: an unmatched opening double quote never makes the tokenizer fail;
spaces after it no longer split, and everything after the quote ends up in
one final token.  First conjunct: quote at the start of the input; second
conjunct: quote opening a fresh token after a space, with a quote-free
prefix tokenized as usual before it. -/
theorem C9_unterminated_quote :
    (∀ r : String, '\"' ∉ r.data → r ≠ "" → tokenizeRaw ("\"" ++ r) = [r]) ∧
    (∀ p r : String, '\"' ∉ p.data → '\"' ∉ r.data → r ≠ "" →
      tokenizeRaw (p ++ " \"" ++ r) = tokenizeRaw p ++ [r]) := by
  constructor
  · intro r hr hne
    unfold tokenizeRaw
    have hdata : ("\"" ++ r).data = '\"' :: r.data := by
      simp [String.data_append]
    rw [hdata]
    simp only [List.foldl_cons]
    have h1 : tokStep ([], [], false) '\"' = ([], [], true) := by
      simp [tokStep]
    rw [h1, run_inquote r.data hr [] []]
    simp only [tokFinish, List.nil_append]
    rw [if_neg (string_data_ne r hne)]
  · intro p r hp hr hne
    unfold tokenizeRaw
    have hdata : (p ++ " \"" ++ r).data = p.data ++ (' ' :: '\"' :: r.data) := by
      simp [String.data_append]
    rw [hdata, List.foldl_append]
    obtain ⟨ts, cur, hst⟩ := run_keeps_unquoted p.data hp [] []
    rw [hst]
    simp only [List.foldl_cons]
    rw [tokStep_space]
    have h1 : tokStep (tokFinish (ts, cur, false), [], false) '\"'
        = (tokFinish (ts, cur, false), [], true) := by
      simp [tokStep]
    rw [h1, run_inquote r.data hr _ []]
    simp only [tokFinish, List.nil_append]
    rw [if_neg (string_data_ne r hne)]

theorem C9_witness :
    tokenizeRaw ("abc" ++ " \"" ++ "def gh") = tokenizeRaw "abc" ++ ["def gh"] :=
  C9_unterminated_quote.2 "abc" "def gh" (by decide) (by decide) (by decide)

theorem C8_witness :
    tokenizeRaw "ab cd" = tokenizeBySpace "ab cd" ∧
    tokenizeRaw ("\"" ++ "x y" ++ "\"" ++ " z") = "x y" :: tokenizeRaw " z" :=
  ⟨C8_space_quote_tokenizer.2.1 "ab cd" (by decide),
   C8_space_quote_tokenizer.2.2 "x y" " z" (by decide) (by decide)⟩

/-- C1: the code does NOT skip the consumed next token.  After a token whose
value part after the colon is empty, the next token is consumed as the
filter value, but since `i += 1` inside `for i in range(...)` has no effect
in Python, the same token is then processed again and (containing no colon)
is appended to the free-text terms.  So `tokenize('rating: PG-13')` yields
terms = ["PG-13"] (the claim and the code's own comment at line 51 say []),
with columnFilters = {"rating": "PG-13"}; likewise for the quoted director
example.  This theorem evaluates the code at both failing inputs. -/
theorem C1_next_token_not_skipped :
    parse_search_terms "rating: PG-13" = (["PG-13"], [("rating", "PG-13")]) ∧
    parse_search_terms "director: \"Quentin Tarantino\"" =
      (["Quentin Tarantino"], [("director", "Quentin Tarantino")]) := by
  decide

theorem reCompAux_noMeta (cs : List Char)
    (h : cs.all (fun c => !isMeta c) = true) :
    reCompAux cs 0 = some (cs.map Atom.lit) := by
  induction cs with
  | nil => rfl
  | cons c cs ih =>
    simp only [List.all_cons, Bool.and_eq_true] at h
    obtain ⟨hc, hcs⟩ := h
    have hm : isMeta c = false := by simpa using hc
    have h1 : c ≠ '(' := by intro e; subst e; exact absurd hm (by decide)
    have h2 : c ≠ ')' := by intro e; subst e; exact absurd hm (by decide)
    have h3 : c ≠ '.' := by intro e; subst e; exact absurd hm (by decide)
    simp only [reCompAux]
    rw [if_neg h1, if_neg h2, if_neg h3, if_neg (by simp [hm])]
    rw [ih hcs]
    rfl

theorem matchHere_lit (pat : List Char) :
    ∀ s : List Char, matchHere (pat.map Atom.lit) s
      = isPrefixSeq (pat.map Char.toLower) (s.map Char.toLower) := by
  induction pat with
  | nil => intro s; cases s <;> rfl
  | cons p ps ih =>
    intro s
    cases s with
    | nil => rfl
    | cons c cs =>
      simp only [List.map_cons, matchHere, isPrefixSeq, atomMatch]
      rw [ih cs]

theorem reSearch_lit (pat : List Char) :
    ∀ s : List Char, reSearch (pat.map Atom.lit) s
      = containsSeq (pat.map Char.toLower) (s.map Char.toLower) := by
  intro s
  induction s with
  | nil =>
    simp only [reSearch, containsSeq]
    cases pat <;> rfl
  | cons c cs ih =>
    simp only [reSearch, containsSeq, List.map_cons]
    rw [← List.map_cons, matchHere_lit, ih]

theorem reSearch_spec (hay pat : String) :
    reSearch (pat.data.map Atom.lit) hay.data = spec_containsCI hay pat :=
  reSearch_lit pat.data hay.data

theorem reComp_noMeta (pat : String) (h : noMeta pat = true) :
    reComp pat = some (pat.data.map Atom.lit) :=
  reCompAux_noMeta pat.data h

theorem applyColFilter_noMeta (cols : List String) (rows : List (List Value))
    (cv : String × String) (h : noMeta cv.2 = true) :
    applyColFilter ⟨cols, rows⟩ cv.1 cv.2
      = Except.ok ⟨cols, rows.filter (fun r => specColPred cols cv r)⟩ := by
  unfold applyColFilter specColPred
  cases hf : cols.findIdx? (fun c => strLower c = strLower cv.1) with
  | none =>
    simp only [hf, List.filter_true]
  | some i =>
    simp only [hf, reComp_noMeta cv.2 h]
    congr 1
    refine congrArg _ (List.filter_congr ?_)
    intro r _
    exact reSearch_spec _ _

theorem applyTerm_noMeta (cols : List String) (rows : List (List Value))
    (t : String) (h : noMeta t = true) :
    applyTerm ⟨cols, rows⟩ t
      = Except.ok ⟨cols, rows.filter (fun r => specTermPred cols t r)⟩ := by
  unfold applyTerm specTermPred
  by_cases ht : t = ""
  · rw [if_pos ht]
    have : ∀ r : List Value, (decide (t = "") ||
        (List.range cols.length).any (fun i =>
          spec_containsCI (valueToStr (r.getD i Value.vmissing)) t)) = true := by
      intro r
      simp [ht]
    simp only [this, List.filter_true]
  · rw [if_neg ht]
    simp only [reComp_noMeta t h]
    congr 1
    refine congrArg _ (List.filter_congr ?_)
    intro r _
    have he : decide (t = "") = false := by simp [ht]
    rw [he, Bool.false_or]
    refine congrArg _ (funext fun i => ?_)
    exact reSearch_spec _ _

theorem foldl_colFilters_error (l : List (String × String)) :
    l.foldl (fun acc cv => acc.bind (fun dd => applyColFilter dd cv.1 cv.2))
      (Except.error ()) = Except.error () := by
  induction l with
  | nil => rfl
  | cons cv l ih => simpa using ih

theorem foldl_terms_error (l : List String) :
    l.foldl (fun acc t => acc.bind (fun dd => applyTerm dd t))
      (Except.error ()) = Except.error () := by
  induction l with
  | nil => rfl
  | cons t l ih => simpa using ih

theorem runColFilters_cons (d : Dataset) (cv : String × String)
    (l : List (String × String)) :
    runColFilters d (cv :: l)
      = (applyColFilter d cv.1 cv.2).bind (fun dd => runColFilters dd l) := by
  cases happ : applyColFilter d cv.1 cv.2 with
  | ok d2 =>
    simp only [runColFilters, List.foldl_cons]
    rw [show ((Except.ok d : Except Unit Dataset).bind
      (fun dd => applyColFilter dd cv.1 cv.2)) = applyColFilter d cv.1 cv.2
      from rfl, happ]
    rfl
  | error e =>
    simp only [runColFilters, List.foldl_cons]
    rw [show ((Except.ok d : Except Unit Dataset).bind
      (fun dd => applyColFilter dd cv.1 cv.2)) = applyColFilter d cv.1 cv.2
      from rfl, happ]
    cases e
    rw [foldl_colFilters_error]
    rfl

theorem runTerms_cons (d : Dataset) (t : String) (l : List String) :
    runTerms d (t :: l) = (applyTerm d t).bind (fun dd => runTerms dd l) := by
  cases happ : applyTerm d t with
  | ok d2 =>
    simp only [runTerms, List.foldl_cons]
    rw [show ((Except.ok d : Except Unit Dataset).bind
      (fun dd => applyTerm dd t)) = applyTerm d t from rfl, happ]
    rfl
  | error e =>
    simp only [runTerms, List.foldl_cons]
    rw [show ((Except.ok d : Except Unit Dataset).bind
      (fun dd => applyTerm dd t)) = applyTerm d t from rfl, happ]
    cases e
    rw [foldl_terms_error]
    rfl

theorem runColFilters_noMeta (l : List (String × String)) :
    ∀ (cols : List String) (rows : List (List Value)),
      l.all (fun cv => noMeta cv.2) = true →
      runColFilters ⟨cols, rows⟩ l = Except.ok
        ⟨cols, rows.filter (fun r => l.all (fun cv => specColPred cols cv r))⟩ := by
  induction l with
  | nil =>
    intro cols rows _
    simp only [List.all_nil, List.filter_true]
    rfl
  | cons cv l ih =>
    intro cols rows h
    simp only [List.all_cons, Bool.and_eq_true] at h
    obtain ⟨h1, h2⟩ := h
    rw [runColFilters_cons, applyColFilter_noMeta cols rows cv h1]
    show runColFilters _ l = _
    rw [ih cols _ h2, List.filter_filter]
    congr 1
    refine congrArg _ (List.filter_congr ?_)
    intro r _
    rw [List.all_cons, Bool.and_comm]

theorem runTerms_noMeta (l : List String) :
    ∀ (cols : List String) (rows : List (List Value)),
      l.all noMeta = true →
      runTerms ⟨cols, rows⟩ l = Except.ok
        ⟨cols, rows.filter (fun r => l.all (fun t => specTermPred cols t r))⟩ := by
  induction l with
  | nil =>
    intro cols rows _
    simp only [List.all_nil, List.filter_true]
    rfl
  | cons t l ih =>
    intro cols rows h
    simp only [List.all_cons, Bool.and_eq_true] at h
    obtain ⟨h1, h2⟩ := h
    rw [runTerms_cons, applyTerm_noMeta cols rows t h1]
    show runTerms _ l = _
    rw [ih cols _ h2, List.filter_filter]
    congr 1
    refine congrArg _ (List.filter_congr ?_)
    intro r _
    rw [List.all_cons, Bool.and_comm]

/-- The claim of C2, as stated, is false: pandas `str.contains` interprets
the filter value as a regular expression, so the query "title:(" (an
unterminated group) raises `re.error` instead of returning a filtered
dataset.  The error value models the raised exception. -/
theorem C2_invalid_regex_raises :
    apply_search_filters ⟨["title"], [[Value.vstr "ab"]]⟩ "title:("
      = Except.error () := rfl

/-- C2 (amended): filtering never errors as long as every parsed free-text
term and column-filter value is free of regex metacharacters; only a value
or term that is an invalid regular expression (such as a lone "(") makes
the engine raise. -/
theorem C2_no_error_without_metachars (d : Dataset) (q : String)
    (hc : (parse_search_terms q).2.all (fun cv => noMeta cv.2) = true)
    (ht : (parse_search_terms q).1.all noMeta = true) :
    ∃ d2, apply_search_filters d q = Except.ok d2 := by
  by_cases hq : q.data.all pyIsSpace
  · exact ⟨d, by simp [apply_search_filters, hq]⟩
  · obtain ⟨cols, rows⟩ := d
    have heq : apply_search_filters ⟨cols, rows⟩ q = Except.ok
        ⟨cols, (rows.filter (fun r =>
          (parse_search_terms q).2.all (fun cv => specColPred cols cv r))).filter
            (fun r => (parse_search_terms q).1.all
              (fun t => specTermPred cols t r))⟩ := by
      unfold apply_search_filters
      rw [if_neg hq, runColFilters_noMeta _ cols rows hc]
      show runTerms _ _ = _
      exact runTerms_noMeta _ cols _ ht
    exact ⟨_, heq⟩

theorem C2_witness :
    ∃ d2, apply_search_filters ⟨["title"], [[Value.vstr "ab"]]⟩
      "love title:heat" = Except.ok d2 :=
  C2_no_error_without_metachars _ _ (by decide) (by decide)

/-- The claim of C3, as stated, is false: matching is not literal substring
containment.  The free-text term "." (a regex wildcard) retains the row
whose only cell is "ab" even though "ab" does not contain "." as a
substring. -/
theorem C3_dot_matches_without_substring :
    apply_search_filters ⟨["title"], [[Value.vstr "ab"]]⟩ "."
        = Except.ok ⟨["title"], [[Value.vstr "ab"]]⟩ ∧
    spec_containsCI "ab" "." = false :=
  ⟨rfl, by decide⟩

/-- C3 (amended): the value and term are matched as regular expressions
with IGNORECASE, not as literal substrings; restricted to
metacharacter-free values and terms the two coincide, and then the engine's
semantics is exactly the claim's: a row survives iff every column filter's
value is a case-insensitive substring of the rendered cell of the first
case-insensitively matching column (no matching column: no constraint) and
every nonempty term is a case-insensitive substring of at least one
column's rendered cell (OR across columns, AND across filters and terms). -/
theorem C3_matching_semantics (d : Dataset) (q : String)
    (hq : q.data.all pyIsSpace = false)
    (hc : (parse_search_terms q).2.all (fun cv => noMeta cv.2) = true)
    (ht : (parse_search_terms q).1.all noMeta = true) :
    apply_search_filters d q = Except.ok
      ⟨d.cols, d.rows.filter
        (specRowKeep d.cols (parse_search_terms q).2 (parse_search_terms q).1)⟩ := by
  obtain ⟨cols, rows⟩ := d
  unfold apply_search_filters
  rw [if_neg (by simp [hq]), runColFilters_noMeta _ cols rows hc]
  show runTerms _ _ = _
  rw [runTerms_noMeta _ cols _ ht, List.filter_filter]
  unfold specRowKeep
  congr 1
  refine congrArg _ (List.filter_congr ?_)
  intro r _
  rw [Bool.and_comm]

theorem C3_witness :
    apply_search_filters
        ⟨["title", "type"],
         [[Value.vstr "Love Actually", Value.vstr "Movie"],
          [Value.vstr "Heat", Value.vstr "Movie"]]⟩ "love type:movie"
      = Except.ok
        ⟨["title", "type"],
         ([[Value.vstr "Love Actually", Value.vstr "Movie"],
           [Value.vstr "Heat", Value.vstr "Movie"]] : List (List Value)).filter
          (specRowKeep ["title", "type"]
            (parse_search_terms "love type:movie").2
            (parse_search_terms "love type:movie").1)⟩ :=
  C3_matching_semantics _ _ (by decide) (by decide) (by decide)

/-- C4: a query that is empty or whitespace-only leaves the dataset
unchanged. -/
theorem C4_whitespace_identity (d : Dataset) (q : String)
    (h : q.data.all pyIsSpace = true) :
    apply_search_filters d q = Except.ok d := by
  simp [apply_search_filters, h]

theorem C4_witness :
    apply_search_filters ⟨["title"], [[Value.vstr "ab"]]⟩ ""
        = Except.ok ⟨["title"], [[Value.vstr "ab"]]⟩ ∧
    apply_search_filters ⟨["title"], [[Value.vstr "ab"]]⟩ " \t "
        = Except.ok ⟨["title"], [[Value.vstr "ab"]]⟩ :=
  ⟨C4_whitespace_identity _ "" (by decide),
   C4_whitespace_identity _ " \t " (by decide)⟩

theorem applyColFilter_cases (cols : List String) (col v : String) :
    (∀ rows, applyColFilter ⟨cols, rows⟩ col v = Except.error ()) ∨
    (∃ p : List Value → Bool, ∀ rows,
      applyColFilter ⟨cols, rows⟩ col v = Except.ok ⟨cols, rows.filter p⟩) := by
  cases hf : cols.findIdx? (fun c => strLower c = strLower col) with
  | none =>
    right
    refine ⟨fun _ => true, fun rows => ?_⟩
    simp [applyColFilter, hf, List.filter_true]
  | some i =>
    cases hcmp : reComp v with
    | none =>
      left
      intro rows
      simp [applyColFilter, hf, hcmp]
    | some as =>
      right
      refine ⟨fun r => reSearch as (valueToStr (r.getD i Value.vmissing)).data,
        fun rows => ?_⟩
      simp [applyColFilter, hf, hcmp]

theorem applyTerm_cases (cols : List String) (t : String) :
    (∀ rows, applyTerm ⟨cols, rows⟩ t = Except.error ()) ∨
    (∃ p : List Value → Bool, ∀ rows,
      applyTerm ⟨cols, rows⟩ t = Except.ok ⟨cols, rows.filter p⟩) := by
  by_cases ht : t = ""
  · right
    refine ⟨fun _ => true, fun rows => ?_⟩
    simp [applyTerm, ht, List.filter_true]
  · cases hcmp : reComp t with
    | none =>
      left
      intro rows
      simp [applyTerm, ht, hcmp]
    | some as =>
      right
      refine ⟨fun r => (List.range cols.length).any (fun i =>
        reSearch as (valueToStr (r.getD i Value.vmissing)).data), fun rows => ?_⟩
      simp [applyTerm, ht, hcmp]

theorem runColFilters_cases (l : List (String × String)) (cols : List String) :
    (∀ rows, runColFilters ⟨cols, rows⟩ l = Except.error ()) ∨
    (∃ p : List Value → Bool, ∀ rows,
      runColFilters ⟨cols, rows⟩ l = Except.ok ⟨cols, rows.filter p⟩) := by
  induction l with
  | nil =>
    right
    refine ⟨fun _ => true, fun rows => ?_⟩
    simp [runColFilters, List.filter_true]
  | cons cv l ih =>
    rcases applyColFilter_cases cols cv.1 cv.2 with herr | ⟨p1, hok⟩
    · left
      intro rows
      rw [runColFilters_cons, herr rows]
      rfl
    · rcases ih with herr2 | ⟨p2, hok2⟩
      · left
        intro rows
        rw [runColFilters_cons, hok rows]
        show runColFilters _ l = _
        exact herr2 _
      · right
        refine ⟨fun r => p2 r && p1 r, fun rows => ?_⟩
        rw [runColFilters_cons, hok rows]
        show runColFilters _ l = _
        rw [hok2 (rows.filter p1), List.filter_filter]

theorem runTerms_cases (l : List String) (cols : List String) :
    (∀ rows, runTerms ⟨cols, rows⟩ l = Except.error ()) ∨
    (∃ p : List Value → Bool, ∀ rows,
      runTerms ⟨cols, rows⟩ l = Except.ok ⟨cols, rows.filter p⟩) := by
  induction l with
  | nil =>
    right
    refine ⟨fun _ => true, fun rows => ?_⟩
    simp [runTerms, List.filter_true]
  | cons t l ih =>
    rcases applyTerm_cases cols t with herr | ⟨p1, hok⟩
    · left
      intro rows
      rw [runTerms_cons, herr rows]
      rfl
    · rcases ih with herr2 | ⟨p2, hok2⟩
      · left
        intro rows
        rw [runTerms_cons, hok rows]
        show runTerms _ l = _
        exact herr2 _
      · right
        refine ⟨fun r => p2 r && p1 r, fun rows => ?_⟩
        rw [runTerms_cons, hok rows]
        show runTerms _ l = _
        rw [hok2 (rows.filter p1), List.filter_filter]

theorem apply_search_filters_cases (q : String) (cols : List String) :
    (∀ rows, apply_search_filters ⟨cols, rows⟩ q = Except.error ()) ∨
    (∃ p : List Value → Bool, ∀ rows,
      apply_search_filters ⟨cols, rows⟩ q = Except.ok ⟨cols, rows.filter p⟩) := by
  by_cases hq : q.data.all pyIsSpace
  · right
    refine ⟨fun _ => true, fun rows => ?_⟩
    simp [apply_search_filters, hq, List.filter_true]
  · rcases runColFilters_cases (parse_search_terms q).2 cols with herr | ⟨p1, hok⟩
    · left
      intro rows
      unfold apply_search_filters
      rw [if_neg hq, herr rows]
      rfl
    · rcases runTerms_cases (parse_search_terms q).1 cols with herr2 | ⟨p2, hok2⟩
      · left
        intro rows
        unfold apply_search_filters
        rw [if_neg hq, hok rows]
        show runTerms _ _ = _
        exact herr2 _
      · right
        refine ⟨fun r => p2 r && p1 r, fun rows => ?_⟩
        unfold apply_search_filters
        rw [if_neg hq, hok rows]
        show runTerms _ _ = _
        rw [hok2 (rows.filter p1), List.filter_filter]

/-- C5: filtering is idempotent — whenever a filter run succeeds, running
the same query on its output returns that output unchanged.  (Purity and
non-mutation of the input hold by construction of the embedding: every
operation builds a new dataset value.) -/
theorem C5_idempotent (d : Dataset) (q : String) (d2 : Dataset)
    (h : apply_search_filters d q = Except.ok d2) :
    apply_search_filters d2 q = Except.ok d2 := by
  obtain ⟨cols, rows⟩ := d
  rcases apply_search_filters_cases q cols with herr | ⟨p, hok⟩
  · rw [herr rows] at h
    exact absurd h (by simp)
  · rw [hok rows] at h
    have hd2 : d2 = ⟨cols, rows.filter p⟩ := (Except.ok.inj h).symm
    subst hd2
    rw [hok (rows.filter p), List.filter_filter]
    have : (rows.filter p).filter p = rows.filter p := by
      rw [List.filter_filter]
      exact List.filter_congr (fun a _ => Bool.and_self (p a))
    rw [List.filter_filter] at this
    rw [this]

theorem C5_witness :
    apply_search_filters ⟨["title"], [[Value.vstr "Love"], [Value.vstr "Heat"]]⟩
        "love" = Except.ok ⟨["title"], [[Value.vstr "Love"]]⟩ ∧
    apply_search_filters ⟨["title"], [[Value.vstr "Love"]]⟩ "love"
        = Except.ok ⟨["title"], [[Value.vstr "Love"]]⟩ :=
  ⟨rfl, C5_idempotent ⟨["title"], [[Value.vstr "Love"], [Value.vstr "Heat"]]⟩
    "love" ⟨["title"], [[Value.vstr "Love"]]⟩ rfl⟩

/-- C6: whenever a filter run succeeds, its output rows are a sublist of
the input rows — no row reordered, duplicated or invented — and the column
list is unchanged. -/
theorem C6_subsequence (d : Dataset) (q : String) (d2 : Dataset)
    (h : apply_search_filters d q = Except.ok d2) :
    List.Sublist d2.rows d.rows ∧ d2.cols = d.cols := by
  obtain ⟨cols, rows⟩ := d
  rcases apply_search_filters_cases q cols with herr | ⟨p, hok⟩
  · rw [herr rows] at h
    exact absurd h (by simp)
  · rw [hok rows] at h
    have hd2 : d2 = ⟨cols, rows.filter p⟩ := (Except.ok.inj h).symm
    subst hd2
    exact ⟨List.filter_sublist rows, rfl⟩

theorem C6_witness :
    List.Sublist
      (⟨["title"], [[Value.vstr "Heat"]]⟩ : Dataset).rows
      (⟨["title"], [[Value.vstr "Love"], [Value.vstr "Heat"]]⟩ : Dataset).rows ∧
    (⟨["title"], [[Value.vstr "Heat"]]⟩ : Dataset).cols
      = (⟨["title"], [[Value.vstr "Love"], [Value.vstr "Heat"]]⟩ : Dataset).cols :=
  C6_subsequence ⟨["title"], [[Value.vstr "Love"], [Value.vstr "Heat"]]⟩ "heat"
    ⟨["title"], [[Value.vstr "Heat"]]⟩ rfl

theorem findIdx?_none_aux {α : Type} (p : α → Bool) (l : List α)
    (h : ∀ a ∈ l, p a = false) : ∀ i, l.findIdx? p i = none := by
  induction l with
  | nil => intro i; rfl
  | cons a l ih =>
    intro i
    have ha : p a = false := h a (List.mem_cons_self a l)
    simp only [List.findIdx?, ha]
    exact ih (fun b hb => h b (List.mem_cons_of_mem a hb)) (i + 1)

/-- C7: a column filter whose key matches no column name case-insensitively
is silently ignored and imposes no constraint.  First conjunct: the general
statement for one filter; second conjunct: the claim's instance — filtering
any dataset with columns ["title", "type"] on the query "foo:bar" returns
the dataset unchanged, with no error. -/
theorem C7_unknown_column_ignored :
    (∀ (cols : List String) (rows : List (List Value)) (k v : String),
        (∀ c ∈ cols, strLower c ≠ strLower k) →
        applyColFilter ⟨cols, rows⟩ k v = Except.ok ⟨cols, rows⟩) ∧
    (∀ d : Dataset, d.cols = ["title", "type"] →
        apply_search_filters d "foo:bar" = Except.ok d) := by
  have hgen : ∀ (cols : List String) (rows : List (List Value)) (k v : String),
      (∀ c ∈ cols, strLower c ≠ strLower k) →
      applyColFilter ⟨cols, rows⟩ k v = Except.ok ⟨cols, rows⟩ := by
    intro cols rows k v hno
    have hf : cols.findIdx? (fun c => strLower c = strLower k) = none :=
      findIdx?_none_aux _ cols (fun a ha => by simpa using hno a ha) 0
    simp [applyColFilter, hf]
  refine ⟨hgen, ?_⟩
  intro d hcols
  obtain ⟨cols, rows⟩ := d
  have hc2 : cols = ["title", "type"] := hcols
  subst hc2
  unfold apply_search_filters
  rw [if_neg (by decide)]
  have hp : parse_search_terms "foo:bar" = ([], [("foo", "bar")]) := by decide
  rw [hp]
  have h1 : applyColFilter ⟨["title", "type"], rows⟩ "foo" "bar"
      = Except.ok ⟨["title", "type"], rows⟩ := hgen _ rows "foo" "bar" (by decide)
  rw [runColFilters_cons, h1]
  rfl

theorem C7_witness :
    apply_search_filters ⟨["title", "type"], [[Value.vstr "a", Value.vstr "b"]]⟩
        "foo:bar"
      = Except.ok ⟨["title", "type"], [[Value.vstr "a", Value.vstr "b"]]⟩ :=
  C7_unknown_column_ignored.2 ⟨["title", "type"],
    [[Value.vstr "a", Value.vstr "b"]]⟩ rfl

theorem isPrefixSeq_subset :
    ∀ (n h : List Char), isPrefixSeq n h = true → ∀ x ∈ n, x ∈ h := by
  intro n
  induction n with
  | nil => intro h _ x hx; exact absurd hx (List.not_mem_nil x)
  | cons a as ih =>
    intro h hp x hx
    cases h with
    | nil => exact absurd hp (by simp [isPrefixSeq])
    | cons b bs =>
      simp only [isPrefixSeq, Bool.and_eq_true, decide_eq_true_eq] at hp
      obtain ⟨hab, hrest⟩ := hp
      rcases List.mem_cons.mp hx with rfl | hx2
      · subst hab
        exact List.mem_cons_self _ _
      · exact List.mem_cons_of_mem _ (ih bs hrest x hx2)

theorem containsSeq_subset :
    ∀ (h n : List Char), containsSeq n h = true → ∀ x ∈ n, x ∈ h := by
  intro h
  induction h with
  | nil =>
    intro n hc x hx
    simp only [containsSeq, List.isEmpty_iff] at hc
    subst hc
    exact absurd hx (List.not_mem_nil x)
  | cons c t ih =>
    intro n hc x hx
    simp only [containsSeq, Bool.or_eq_true] at hc
    rcases hc with hp | hr
    · exact isPrefixSeq_subset n (c :: t) hp x hx
    · exact List.mem_cons_of_mem _ (ih n hr x hx)

theorem meta_toLower_self (c : Char) (h : isMeta c = true) :
    Char.toLower c = c := by
  simp only [isMeta, Bool.or_eq_true, decide_eq_true_eq] at h
  rcases h with (((((((((((((rfl | rfl) | rfl) | rfl) | rfl) | rfl) | rfl) |
    rfl) | rfl) | rfl) | rfl) | rfl) | rfl) | rfl) <;> decide

theorem nan_noMeta (t : String) (h : spec_containsCI "nan" t = true) :
    noMeta t = true := by
  unfold spec_containsCI at h
  unfold noMeta
  rw [List.all_eq_true]
  intro c hc
  have hmem : Char.toLower c ∈ ("nan".data.map Char.toLower) :=
    containsSeq_subset _ _ h (Char.toLower c)
      (List.mem_map_of_mem Char.toLower hc)
  have hm3 : Char.toLower c ∈ (['n', 'a', 'n'] : List Char) := by
    have e : "nan".data.map Char.toLower = ['n', 'a', 'n'] := by decide
    rw [e] at hmem
    exact hmem
  simp only [Bool.not_eq_true']
  by_contra hm
  have hm2 : isMeta c = true := by
    cases hb : isMeta c
    · exact absurd hb hm
    · rfl
  rw [meta_toLower_self c hm2] at hm3
  rcases List.mem_cons.mp hm3 with rfl | hm4
  · exact absurd hm2 (by decide)
  · rcases List.mem_cons.mp hm4 with rfl | hm5
    · exact absurd hm2 (by decide)
    · rcases List.mem_cons.mp hm5 with rfl | hm6
      · exact absurd hm2 (by decide)
      · exact absurd hm6 (List.not_mem_nil _)

/-- C10: missing cells are matched through their string rendering "nan".
First conjunct: a missing value renders as "nan".  Second: a row whose cell
in some (scanned) column is missing is retained by any free-text term that
is a case-insensitive substring of "nan".  Third: such a row is retained by
any column filter whose (case-insensitively) matched column holds the
missing cell and whose value is a case-insensitive substring of "nan". -/
theorem C10_missing_matches_nan :
    valueToStr Value.vmissing = "nan" ∧
    (∀ (cols : List String) (rows : List (List Value)) (r : List Value)
        (t : String) (i : Nat) (d2 : Dataset),
      i < cols.length → r.getD i Value.vmissing = Value.vmissing →
      spec_containsCI "nan" t = true → r ∈ rows →
      applyTerm ⟨cols, rows⟩ t = Except.ok d2 → r ∈ d2.rows) ∧
    (∀ (cols : List String) (rows : List (List Value)) (r : List Value)
        (k v : String) (i : Nat) (d2 : Dataset),
      cols.findIdx? (fun c => strLower c = strLower k) = some i →
      r.getD i Value.vmissing = Value.vmissing →
      spec_containsCI "nan" v = true → r ∈ rows →
      applyColFilter ⟨cols, rows⟩ k v = Except.ok d2 → r ∈ d2.rows) := by
  refine ⟨rfl, ?_, ?_⟩
  · intro cols rows r t i d2 hi hmiss hnan hr happ
    by_cases ht : t = ""
    · subst ht
      have heq : applyTerm ⟨cols, rows⟩ "" = Except.ok ⟨cols, rows⟩ := by
        simp [applyTerm]
      rw [heq] at happ
      cases Except.ok.inj happ
      exact hr
    · have hcmp := reComp_noMeta t (nan_noMeta t hnan)
      have heq : applyTerm ⟨cols, rows⟩ t = Except.ok
          ⟨cols, rows.filter (fun rr => (List.range cols.length).any (fun j =>
            reSearch (t.data.map Atom.lit)
              (valueToStr (rr.getD j Value.vmissing)).data))⟩ := by
        simp [applyTerm, ht, hcmp]
      rw [heq] at happ
      cases Except.ok.inj happ
      refine List.mem_filter.mpr ⟨hr, ?_⟩
      rw [List.any_eq_true]
      refine ⟨i, List.mem_range.mpr hi, ?_⟩
      rw [hmiss, reSearch_spec]
      exact hnan
  · intro cols rows r k v i d2 hf hmiss hnan hr happ
    have hcmp := reComp_noMeta v (nan_noMeta v hnan)
    have heq : applyColFilter ⟨cols, rows⟩ k v = Except.ok
        ⟨cols, rows.filter (fun rr =>
          reSearch (v.data.map Atom.lit)
            (valueToStr (rr.getD i Value.vmissing)).data)⟩ := by
      simp [applyColFilter, hf, hcmp]
    rw [heq] at happ
    cases Except.ok.inj happ
    refine List.mem_filter.mpr ⟨hr, ?_⟩
    rw [hmiss, reSearch_spec]
    exact hnan

theorem C10_witness :
    ([Value.vstr "Heat", Value.vmissing] ∈
      (⟨["title", "director"],
        [[Value.vstr "Heat", Value.vmissing]]⟩ : Dataset).rows) ∧
    ([Value.vstr "Heat", Value.vmissing] ∈
      (⟨["title", "director"],
        [[Value.vstr "Heat", Value.vmissing]]⟩ : Dataset).rows) :=
  ⟨C10_missing_matches_nan.2.1 ["title", "director"]
      [[Value.vstr "Heat", Value.vmissing]] [Value.vstr "Heat", Value.vmissing]
      "NA" 1 ⟨["title", "director"], [[Value.vstr "Heat", Value.vmissing]]⟩
      (by decide) (by decide) (by decide) (by decide) rfl,
   C10_missing_matches_nan.2.2 ["title", "director"]
      [[Value.vstr "Heat", Value.vmissing], [Value.vstr "X", Value.vstr "Nolan"]]
      [Value.vstr "Heat", Value.vmissing] "Director" "nan" 1
      ⟨["title", "director"], [[Value.vstr "Heat", Value.vmissing]]⟩
      (by decide) (by decide) (by decide) (by decide) rfl⟩
